import Mathlib

/-
Verification of the blockchain Chain component (chain.py) against its
specification.  The Chain class itself is translated from src/chain.py.
The collaborating Block / BlockBuilder classes and the protobuf wire
format live in files that are not part of the provided sources, so they
are modelled from the specification document (sections 3, 4.1, 4.2, 6).

Conventions of the shallow embedding:
- machine integers are Nat (hash values are reduced mod 2^64 explicitly);
- a blob (opaque binary payload) is a list of Nat (its bytes);
- Python object state is passed explicitly: a method that mutates the
  chain becomes a function Chain -> ... -> Chain (or Bool x Chain when it
  also returns a result);
- the defaultdict(set) mined_blobs index is represented by a list of
  (key, block_index, blob_index) entries; set semantics is recovered by
  talking about membership only;
- fallible operations return Except DecodeError.
-/

/-- An opaque binary payload item stored in a block body. -/
abbrev Blob := List Nat

/-- Error raised when decoding malformed or truncated wire bytes. -/
inductive DecodeError where
  | malformed : DecodeError
deriving DecidableEq

/-- Modelled from the spec: a Block is an immutable header
(prev_hash, nonce, difficulty; section 6 wire record field list)
plus an optional body, the ordered list of opaque blobs (section 3).
block.py is not among the provided sources. -/
structure Block where
  prev_hash : Nat
  nonce : Nat
  difficulty : Nat
  body : Option (List Blob)
deriving DecidableEq

/-- Modelled from the spec: deterministic digest over the header fields
only (prev_hash, nonce, difficulty); body content never enters the
digest, so header-only blocks can receive a body without invalidating
the chain (section 3). -/
def Block.hash (b : Block) : Nat :=
  (((b.prev_hash + 1) * 1000003 + b.nonce + 1) * 1000003 + b.difficulty + 1) % 2 ^ 64

/-- Modelled from the spec: a block is valid iff its header digest,
read as an integer, is below the difficulty-derived target
(section 4.1). -/
def Block.is_valid (b : Block) : Bool :=
  decide (b.hash < 2 ^ 64 / 2 ^ b.difficulty)

/-- Modelled from the spec: cost is a monotone function of difficulty
(2^difficulty), the mining-work proxy summed to compare chains. -/
def Block.get_cost (b : Block) : Nat :=
  2 ^ b.difficulty

/-- Modelled from the spec: pure accessor for the nonce. -/
def Block.get_nonce (b : Block) : Nat :=
  b.nonce

/-- Modelled from the spec: the optional body; None when only the
header has been received. -/
def Block.get_body (b : Block) : Option (List Blob) :=
  b.body

/-- Modelled from the spec: true iff a body is currently attached. -/
def Block.has_body (b : Block) : Bool :=
  b.body.isSome

/-- Modelled from the spec: set_body attaches the given body and never
alters the header (section 4.1).  chain.py calls it with the
replacement block's get_body() result, so the argument is optional. -/
def Block.set_body (b : Block) (bd : Option (List Blob)) : Block :=
  { b with body := bd }

/-- Modelled from the spec: block equality compares headers only,
regardless of body presence (section 3). -/
def Block.sameHeader (b1 b2 : Block) : Bool :=
  b1.prev_hash == b2.prev_hash && b1.nonce == b2.nonce && b1.difficulty == b2.difficulty

/-- Header equality as a proposition. -/
def Block.sameHeaderP (b1 b2 : Block) : Prop :=
  b1.prev_hash = b2.prev_hash ∧ b1.nonce = b2.nonce ∧ b1.difficulty = b2.difficulty

/-- The block with the same header and no body (what a headers-only
decode produces). -/
def Block.dropBody (b : Block) : Block :=
  { b with body := none }

/-- Modelled from the spec: the fixed genesis block, pre-agreed
parameters, trivially valid, carrying an empty body. -/
def Block.genesis : Block :=
  { prev_hash := 0, nonce := 0, difficulty := 0, body := some [] }

/-- Modelled from the spec: the blob wrapper format (a BlobMessage
protobuf, whose sources are not provided) exposes a stable content hash
of an opaque blob; `hash(msg.blob)` in chain.py.  Modelled as a fold
over the blob bytes. -/
def blobHash (b : Blob) : Nat :=
  b.foldl (fun a x => a * 257 + x + 1) 7

/-- The mined_blobs entries contributed by one block body: entry
(blobHash blob, block_idx, blob_idx) for each blob of the body, with
blob indices counted from j0 (chain.py lines 112-115). -/
def blobEntries (bidx : Nat) : Nat → List Blob → List (Nat × Nat × Nat)
  | _, [] => []
  | j, blob :: rest => (blobHash blob, bidx, j) :: blobEntries bidx (j + 1) rest

/-- Chain.__add_mined_blobs (chain.py lines 101-115): record every blob
of the block body under its content hash, guarded by has_body(); a
bodiless block contributes nothing. -/
def Chain.addMinedBlobs (block_idx : Nat) (block : Block) (mb : List (Nat × Nat × Nat)) :
    List (Nat × Nat × Nat) :=
  match block.body with
  | none => mb
  | some blobs => mb ++ blobEntries block_idx 0 blobs

/-- The Chain state (chain.py): the ordered block list (index 0 is
genesis), the running cost total (self.__cost) and the mined-blob
index (self.mined_blobs, a defaultdict of sets, represented here by
its entry list). -/
structure Chain where
  blocks : List Block
  cost : Nat
  mined_blobs : List (Nat × Nat × Nat)
deriving DecidableEq

/-- Chain.__init__ (chain.py lines 42-51): a fresh chain holds exactly
the genesis block and its cost, with an empty blob index. -/
def Chain.init : Chain :=
  { blocks := [Block.genesis], cost := Block.genesis.get_cost, mined_blobs := [] }

/-- Chain.get_cost (chain.py lines 14-20). -/
def Chain.get_cost (c : Chain) : Nat :=
  c.cost

/-- The state change of Chain.add (chain.py lines 53-65): register the
new block's blobs at index len(blocks), add its cost, append it.  This
is only the success path: the full call first evaluates the unguarded
debug-logging read block.get_body().blobs on line 60, which raises for
a bodiless block BEFORE any of these mutations happen; Chain.addE is
the complete call, and Chain.decode's loop uses it.  A sequence of
completed add calls therefore steps exactly through this function, so
the state-invariant theorems below quantify over it (a superset of the
program's reachable states). -/
def Chain.add (c : Chain) (block : Block) : Chain :=
  { blocks := c.blocks ++ [block],
    cost := c.cost + block.get_cost,
    mined_blobs := Chain.addMinedBlobs c.blocks.length block c.mined_blobs }

/-- Chain.add including the evaluation of the debug-logging expression
block.get_body().blobs (chain.py line 60), which is not guarded by
has_body(): when get_body() yields no body object the attribute access
fails before any state is touched. -/
def Chain.addE (c : Chain) (block : Block) : Except String Chain :=
  match block.get_body with
  | none => Except.error "AttributeError: NoneType has no attribute blobs"
  | some _ => Except.ok (c.add block)

/-- Python list.insert semantics for a nonnegative index: insert before
position idx, appending when idx is at or beyond the end. -/
def pyInsert (l : List Block) (idx : Nat) (b : Block) : List Block :=
  l.take idx ++ b :: l.drop idx

/-- Chain.insert (chain.py lines 67-77): register the block's blobs at
idx, add its cost, insert it at idx.  Entries of later blocks are not
renumbered. -/
def Chain.insert (c : Chain) (idx : Nat) (block : Block) : Chain :=
  { blocks := pyInsert c.blocks idx block,
    cost := c.cost + block.get_cost,
    mined_blobs := Chain.addMinedBlobs idx block c.mined_blobs }

/-- Chain.replace (chain.py lines 79-99): reject an index outside
0 < idx < len(blocks) or a block whose header differs from the resident
block's; otherwise overwrite the resident block's body with the given
block's body, register the resulting blobs, and report success.
Nothing is mutated on the failure paths. -/
def Chain.replace (c : Chain) (idx : Nat) (block : Block) : Bool × Chain :=
  if idx = 0 ∨ c.blocks.length ≤ idx then
    (false, c)
  else
    match c.blocks[idx]? with
    | none => (false, c)  -- unreachable: idx < length
    | some cur =>
      if cur.sameHeader block then
        (true,
          { blocks := c.blocks.set idx (cur.set_body block.get_body),
            cost := c.cost,
            mined_blobs :=
              Chain.addMinedBlobs idx (cur.set_body block.get_body) c.mined_blobs })
      else
        (false, c)

/-- The loop body of Chain.is_valid (chain.py lines 143-147): walking
the blocks after the genesis, each must link to its predecessor's hash
and be valid itself, stopping at the first failure. -/
def chainValidFrom (prev : Block) : List Block → Bool
  | [] => true
  | b :: rest => (b.prev_hash == prev.hash && b.is_valid) && chainValidFrom b rest

/-- Chain.is_valid (chain.py lines 135-148): genesis must be valid,
then every later block must link and be valid.  A chain always holds
genesis, so the empty case is unreachable (Python would raise an
IndexError on blocks[0]). -/
def Chain.is_valid (c : Chain) : Bool :=
  match c.blocks with
  | [] => false
  | g :: rest => g.is_valid && chainValidFrom g rest

/-- The loop of Chain.is_complete over the block list: every block must
have a body, stopping at the first bodiless one. -/
def allHasBody : List Block → Bool
  | [] => true
  | b :: rest => b.has_body && allHasBody rest

/-- Chain.is_complete (chain.py lines 173-183): false when the chain is
invalid, false at the first bodiless block, true otherwise. -/
def Chain.is_complete (c : Chain) : Bool :=
  if c.is_valid then allHasBody c.blocks else false

/-- The enumerate loop of Chain.get_bodiless_indices, tracking the
running index. -/
def bodilessFrom : Nat → List Block → List Nat
  | _, [] => []
  | i, b :: rest =>
      if b.has_body then bodilessFrom (i + 1) rest else i :: bodilessFrom (i + 1) rest

/-- Chain.get_bodiless_indices (chain.py lines 161-171): indices of the
blocks that are missing their body. -/
def Chain.get_bodiless_indices (c : Chain) : List Nat :=
  bodilessFrom 0 c.blocks

/-- Modelled from the spec: the BlockBuilder accumulator (block.py is
not among the provided sources): the parent hash it was seeded with,
the target difficulty, and the blobs collected so far (section 4.2). -/
structure BlockBuilder where
  prev_hash : Nat
  difficulty : Nat
  blobs : List Blob
deriving DecidableEq

/-- Modelled from the spec: BlockBuilder.add appends an opaque blob to
the pending body, preserving order. -/
def BlockBuilder.add (bb : BlockBuilder) (blob : Blob) : BlockBuilder :=
  { bb with blobs := bb.blobs ++ [blob] }

/-- Modelled from the spec: the proof-of-work search tries nonces until
the header digest satisfies the target.  The real search's termination
is only probabilistic, so the model bounds it and falls back to nonce 0
when the bound is exhausted; the builder contract used by the claims
(the produced header's prev_hash and difficulty are the seeded ones) is
independent of which nonce the search settles on. -/
def mineNonce (ph d : Nat) : Nat :=
  (((List.range 65536).find? fun n =>
    Block.is_valid { prev_hash := ph, nonce := n, difficulty := d, body := none })).getD 0

/-- Modelled from the spec: BlockBuilder.build finalizes the block:
header = (seeded parent hash, mined nonce, seeded difficulty), body =
the accumulated blobs. -/
def BlockBuilder.build (bb : BlockBuilder) : Block :=
  { prev_hash := bb.prev_hash, nonce := mineNonce bb.prev_hash bb.difficulty,
    difficulty := bb.difficulty, body := some bb.blobs }

/-- Chain.next (chain.py lines 117-133): seed a fresh builder with the
tail block's hash, feed it the blobs, and return the built candidate.
The chain state is only read (blocks[-1]), never written, which the
explicit state passing records by returning the chain unchanged.
Python raises on blocks[-1] for an empty list; a chain always holds
genesis, so the getLastD default is unreachable. -/
def Chain.next (c : Chain) (difficulty : Nat) (blobs : List Blob) : Block × Chain :=
  let prev := c.blocks.getLastD Block.genesis
  let builder : BlockBuilder :=
    { prev_hash := prev.hash, difficulty := difficulty, blobs := [] }
  ((blobs.foldl BlockBuilder.add builder).build, c)

/-- Modelled from the spec: one blob on the wire, length-prefixed
(section 6 treats blob payloads as opaque bytes; the protobuf sources
are not provided, so a simple framing stands in for them). -/
def encBlob (b : Blob) : List Nat :=
  b.length :: b

/-- Modelled from the spec: the body blobs on the wire, in order. -/
def encBlobList : List Blob → List Nat
  | [] => []
  | b :: rest => encBlob b ++ encBlobList rest

/-- Modelled from the spec: Block.encode serializes the header fields
(prev_hash, nonce, difficulty; section 6) followed by the body blobs
when include_body is set and a body is present (marker 1), and a
marker 0 otherwise. -/
def Block.encode (b : Block) (include_body : Bool) : List Nat :=
  [b.prev_hash, b.nonce, b.difficulty] ++
    match include_body, b.body with
    | true, some blobs => 1 :: blobs.length :: encBlobList blobs
    | _, _ => [0]

/-- Modelled from the spec: parse a given number of length-prefixed
blobs, consuming the input exactly; anything else is malformed. -/
def parseBlobs : Nat → List Nat → Except DecodeError (List Blob)
  | 0, [] => Except.ok []
  | 0, _ :: _ => Except.error DecodeError.malformed
  | _ + 1, [] => Except.error DecodeError.malformed
  | m + 1, len :: rest =>
    if rest.length < len then Except.error DecodeError.malformed
    else
      match parseBlobs m (rest.drop len) with
      | Except.error e => Except.error e
      | Except.ok blobs => Except.ok (rest.take len :: blobs)

/-- Modelled from the spec: Block.decode parses the three header fields
(failing on a truncated record) and, when has_body is set, the body
marker and blobs (failing on malformed body bytes); a headers-only
decode ignores any body bytes and yields a bodiless block
(section 4.1). -/
def Block.decode (r : List Nat) (has_body : Bool) : Except DecodeError Block :=
  match r with
  | ph :: n :: d :: rest =>
    if has_body then
      match rest with
      | [0] => Except.ok { prev_hash := ph, nonce := n, difficulty := d, body := none }
      | 1 :: m :: bs =>
        match parseBlobs m bs with
        | Except.error e => Except.error e
        | Except.ok blobs =>
          Except.ok { prev_hash := ph, nonce := n, difficulty := d, body := some blobs }
      | _ => Except.error DecodeError.malformed
    else
      Except.ok { prev_hash := ph, nonce := n, difficulty := d, body := none }
  | _ => Except.error DecodeError.malformed

/-- Modelled from the spec: the chain wire record frames an ordered
list of block records: a record count followed by each record,
length-prefixed. -/
def encRecords : List (List Nat) → List Nat
  | [] => []
  | r :: rest => r.length :: r ++ encRecords rest

/-- Chain.encode (chain.py lines 150-159): serialize every block
(genesis included) with the include_body flag and frame the records. -/
def Chain.encode (c : Chain) (include_body : Bool) : List Nat :=
  c.blocks.length :: encRecords (c.blocks.map fun b => b.encode include_body)

/-- Modelled from the spec: parse a given number of length-prefixed
records, consuming the input exactly; anything else is malformed. -/
def parseRecords : Nat → List Nat → Except DecodeError (List (List Nat))
  | 0, [] => Except.ok []
  | 0, _ :: _ => Except.error DecodeError.malformed
  | _ + 1, [] => Except.error DecodeError.malformed
  | k + 1, len :: rest =>
    if rest.length < len then Except.error DecodeError.malformed
    else
      match parseRecords k (rest.drop len) with
      | Except.error e => Except.error e
      | Except.ok recs => Except.ok (rest.take len :: recs)

/-- Modelled from the spec: parsing the chain wire record
(chain_pb2.Chain.ParseFromString) yields the framed list of block
records, or fails on malformed or truncated bytes. -/
def parseChainMsg : List Nat → Except DecodeError (List (List Nat))
  | [] => Except.error DecodeError.malformed
  | n :: rest => parseRecords n rest

/-- A Python exception surfaced by Chain.decode: the protobuf
DecodeError from malformed bytes, or the AttributeError raised inside
Chain.add by the unguarded body access of chain.py line 60 when the
decoded block is bodiless. -/
inductive ChainDecodeErr where
  | decodeErr : DecodeError → ChainDecodeErr
  | attributeErr : ChainDecodeErr
deriving DecidableEq

/-- The decoding loop of Chain.decode (chain.py lines 36-38): decode
each record with the has_bodies flag and add the block to the chain
under construction.  Each add is the full call Chain.addE, so the loop
stops both at the first record that fails to decode (DecodeError) and
at the first decoded block that is bodiless (the AttributeError of
chain.py line 60; see Chain.addE). -/
def decodeFold : List (List Nat) → Bool → Chain → Except ChainDecodeErr Chain
  | [], _, ch => Except.ok ch
  | r :: rest, hb, ch =>
    match Block.decode r hb with
    | Except.error e => Except.error (ChainDecodeErr.decodeErr e)
    | Except.ok b =>
      match ch.addE b with
      | Except.error _ => Except.error ChainDecodeErr.attributeErr
      | Except.ok ch2 => decodeFold rest hb ch2

/-- Chain.decode (chain.py lines 22-40): parse the wire record, skip
the first block record (the genesis slot), decode and add every
remaining record to a fresh chain, surfacing whichever exception the
loop hits first. -/
def Chain.decode (data : List Nat) (has_bodies : Bool) : Except ChainDecodeErr Chain :=
  match parseChainMsg data with
  | Except.error e => Except.error (ChainDecodeErr.decodeErr e)
  | Except.ok recs => decodeFold (recs.drop 1) has_bodies Chain.init

/-- The decode loop as the spec intends it: the same loop with the
line-60 body access repaired (guarded by has_body() as in
__add_mined_blobs), so a bodiless decoded block is added instead of
raising.  Used only to show that the spec's round-trip property (its
section 8) holds once the slip is fixed; the shipped loop is
decodeFold. -/
def decodeFoldFixed : List (List Nat) → Bool → Chain → Except DecodeError Chain
  | [], _, ch => Except.ok ch
  | r :: rest, hb, ch =>
    match Block.decode r hb with
    | Except.error e => Except.error e
    | Except.ok b => decodeFoldFixed rest hb (ch.add b)

/-- Chain.decode with the repaired add (see decodeFoldFixed): the
spec's intended decoding behaviour. -/
def Chain.decodeFixed (data : List Nat) (has_bodies : Bool) : Except DecodeError Chain :=
  match parseChainMsg data with
  | Except.error e => Except.error e
  | Except.ok recs => decodeFoldFixed (recs.drop 1) has_bodies Chain.init

/-- Decoding a record list without the interleaved adds: used to state
what the decoding loop produces. -/
def decodeAll : List (List Nat) → Bool → Except DecodeError (List Block)
  | [], _ => Except.ok []
  | r :: rest, hb =>
    match Block.decode r hb with
    | Except.error e => Except.error e
    | Except.ok b =>
      match decodeAll rest hb with
      | Except.error e => Except.error e
      | Except.ok bs => Except.ok (b :: bs)

/-- Whether an Except result is a success. -/
def isOkE {ε α : Type} : Except ε α → Bool
  | Except.ok _ => true
  | Except.error _ => false

instance {ε α : Type} [DecidableEq ε] [DecidableEq α] : DecidableEq (Except ε α) := fun x y =>
  match x, y with
  | Except.ok a, Except.ok b =>
    if h : a = b then Decidable.isTrue (by rw [h])
    else Decidable.isFalse (by intro hc; cases hc; exact h rfl)
  | Except.error e, Except.error f =>
    if h : e = f then Decidable.isTrue (by rw [h])
    else Decidable.isFalse (by intro hc; cases hc; exact h rfl)
  | Except.ok _, Except.error _ => Decidable.isFalse (by intro hc; cases hc)
  | Except.error _, Except.ok _ => Decidable.isFalse (by intro hc; cases hc)

/-- One mutating call on the chain: the argument of Chain.apply. -/
inductive Op where
  | add (b : Block)
  | insert (idx : Nat) (b : Block)
  | replace (idx : Nat) (b : Block)
deriving DecidableEq

/-- Run one mutating call against the chain state. -/
def Chain.apply (c : Chain) : Op → Chain
  | Op.add b => c.add b
  | Op.insert idx b => c.insert idx b
  | Op.replace idx b => (c.replace idx b).2

/-- Run a sequence of mutating calls against the chain state. -/
def Chain.run (c : Chain) (ops : List Op) : Chain :=
  ops.foldl Chain.apply c

/-- The cost bookkeeping invariant: the running total equals the sum of
the per-block costs of the blocks currently in the chain. -/
def costOk (c : Chain) : Prop :=
  c.cost = (c.blocks.map Block.get_cost).sum

/-- The blob-index invariant of the claim: mined_blobs reflects exactly
the blobs of the blocks that currently have a body.  Soundness: every
entry (k, i, j) names the block currently at index i, which has a body
whose blob at index j hashes to k (so a bodiless block contributes no
entries).  Completeness: every blob of every body-bearing block is
recorded under its hash at its location. -/
def MinedOk (c : Chain) : Prop :=
  (∀ k i j, (k, i, j) ∈ c.mined_blobs →
    ∃ b, c.blocks[i]? = some b ∧
      ∃ blobs, b.body = some blobs ∧
        ∃ blob, blobs[j]? = some blob ∧ blobHash blob = k) ∧
  (∀ i b, c.blocks[i]? = some b → ∀ blobs, b.body = some blobs →
    ∀ j blob, blobs[j]? = some blob → (blobHash blob, i, j) ∈ c.mined_blobs)

/-- The operations under which the blob index stays exact: add, insert
at the tail index (where no later entries exist to go stale), and
replace aimed at a currently bodiless block (attaching a body for the
first time). -/
def safeOp (c : Chain) : Op → Bool
  | Op.add _ => true
  | Op.insert idx _ => idx == c.blocks.length
  | Op.replace idx _ =>
    match c.blocks[idx]? with
    | none => true
    | some cur => !cur.has_body

/-- Every call of the sequence is safe in the state it runs in. -/
def safeOps : Chain → List Op → Bool
  | _, [] => true
  | c, op :: rest => safeOp c op && safeOps (c.apply op) rest

/-- Every block of a list has a body iff allHasBody returns true. -/
theorem allHasBody_iff (l : List Block) :
    allHasBody l = true ↔ ∀ b ∈ l, b.has_body = true := by
  induction l with
  | nil => simp [allHasBody]
  | cons b rest ih => simp [allHasBody, ih]

/-- Index-based reading of the linkage loop: chainValidFrom g rest is
true iff every consecutive pair of the list g :: rest satisfies the
hash link and validity checks. -/
theorem chainValidFrom_iff (g : Block) (rest : List Block) :
    chainValidFrom g rest = true ↔
      ∀ i cur prev, (g :: rest)[i + 1]? = some cur → (g :: rest)[i]? = some prev →
        cur.prev_hash = prev.hash ∧ cur.is_valid = true := by
  induction rest generalizing g with
  | nil =>
    constructor
    · intro _ i cur prev hcur _
      simp at hcur
    · intro _
      rfl
  | cons b rest ih =>
    constructor
    · intro h i cur prev hcur hprev
      simp only [chainValidFrom, Bool.and_eq_true, beq_iff_eq] at h
      obtain ⟨⟨hlink, hvalid⟩, htail⟩ := h
      match i with
      | 0 =>
        simp only [List.getElem?_cons_succ, List.getElem?_cons_zero] at hcur hprev
        cases hprev
        cases hcur
        exact ⟨hlink, hvalid⟩
      | i + 1 =>
        exact (ih b).mp htail i cur prev (by simpa using hcur) (by simpa using hprev)
    · intro h
      simp only [chainValidFrom, Bool.and_eq_true, beq_iff_eq]
      refine ⟨?_, (ih b).mpr ?_⟩
      · exact h 0 b g (by simp) (by simp)
      · intro i cur prev hcur hprev
        exact h (i + 1) cur prev (by simpa using hcur) (by simpa using hprev)

/-- Blocks with equal headers have equal hashes. -/
theorem Block.sameHeaderP_hash {b1 b2 : Block} (h : b1.sameHeaderP b2) :
    b1.hash = b2.hash := by
  obtain ⟨h1, h2, h3⟩ := h
  simp [Block.hash, h1, h2, h3]

/-- Blocks with equal headers agree on validity. -/
theorem Block.sameHeaderP_is_valid {b1 b2 : Block} (h : b1.sameHeaderP b2) :
    b1.is_valid = b2.is_valid := by
  obtain ⟨h1, h2, h3⟩ := h
  simp [Block.is_valid, Block.hash, h1, h2, h3]

/-- The linkage loop only reads headers: two block lists that agree
pointwise on headers yield the same result from predecessors that
agree on the header. -/
theorem chainValidFrom_headers {l1 l2 : List Block}
    (hl : List.Forall₂ Block.sameHeaderP l1 l2) :
    ∀ p1 p2 : Block, p1.sameHeaderP p2 → chainValidFrom p1 l1 = chainValidFrom p2 l2 := by
  induction hl with
  | nil => intro p1 p2 _; rfl
  | cons hb htail ih =>
    intro p1 p2 hp
    simp only [chainValidFrom]
    rw [Block.sameHeaderP_hash hp, hb.1, Block.sameHeaderP_is_valid hb, ih _ _ hb]

/-- C1: for a chain holding at least its genesis block, is_valid
returns true iff the block at index 0 is itself valid and every later
block links to its predecessor's hash and is valid; and the result
depends only on the block headers, never on any block's body. -/
theorem chain_is_valid_spec (c : Chain) (h : c.blocks ≠ []) :
    (c.is_valid = true ↔
      ((∀ g, c.blocks[0]? = some g → g.is_valid = true) ∧
        ∀ i cur prev, c.blocks[i + 1]? = some cur → c.blocks[i]? = some prev →
          cur.prev_hash = prev.hash ∧ cur.is_valid = true)) ∧
    (∀ c2 : Chain, List.Forall₂ Block.sameHeaderP c.blocks c2.blocks →
      c.is_valid = c2.is_valid) := by
  constructor
  · match hb : c.blocks with
    | [] => exact absurd hb h
    | g :: rest =>
      simp only [Chain.is_valid, hb, Bool.and_eq_true]
      rw [chainValidFrom_iff]
      constructor
      · rintro ⟨hg, hrest⟩
        refine ⟨?_, hrest⟩
        intro g' hg'
        simp only [List.getElem?_cons_zero] at hg'
        cases hg'
        exact hg
      · rintro ⟨hg, hrest⟩
        exact ⟨hg g (by simp), hrest⟩
  · intro c2 hf
    obtain ⟨bl, co, mb⟩ := c
    obtain ⟨bl2, co2, mb2⟩ := c2
    simp only at hf
    cases hf with
    | nil => rfl
    | cons hg htail =>
      simp only [Chain.is_valid]
      rw [Block.sameHeaderP_is_valid hg, chainValidFrom_headers htail _ _ hg]

/-- C1 witness: instantiating the is_valid characterization on a
two-block chain. -/
theorem chain_is_valid_spec_witness :
    (Chain.init.add Block.genesis).blocks ≠ [] ∧
    ((Chain.init.add Block.genesis).is_valid = true ↔
      ((∀ g, (Chain.init.add Block.genesis).blocks[0]? = some g → g.is_valid = true) ∧
        ∀ i cur prev, (Chain.init.add Block.genesis).blocks[i + 1]? = some cur →
          (Chain.init.add Block.genesis).blocks[i]? = some prev →
          cur.prev_hash = prev.hash ∧ cur.is_valid = true)) :=
  ⟨by decide, (chain_is_valid_spec (Chain.init.add Block.genesis) (by decide)).1⟩

/-- C6: is_complete returns true iff is_valid returns true and every
block in the chain has a body. -/
theorem chain_is_complete_spec (c : Chain) :
    c.is_complete = true ↔ (c.is_valid = true ∧ ∀ b ∈ c.blocks, b.has_body = true) := by
  unfold Chain.is_complete
  by_cases h : c.is_valid = true
  · simp [h, allHasBody_iff]
  · simp [h]

/-- Case analysis of Chain.replace: either it fails, leaving the chain
untouched, because the index or the header check rejects; or it
succeeds, the resident block's body is overwritten with the given
block's body, its blobs are registered, and the cost is untouched. -/
theorem Chain.replace_cases (c : Chain) (idx : Nat) (b : Block) :
    ((c.replace idx b).1 = false ∧ (c.replace idx b).2 = c ∧
      ¬(0 < idx ∧ idx < c.blocks.length ∧
        ∃ cur, c.blocks[idx]? = some cur ∧ cur.sameHeader b = true)) ∨
    ((c.replace idx b).1 = true ∧ 0 < idx ∧ idx < c.blocks.length ∧
      ∃ cur, c.blocks[idx]? = some cur ∧ cur.sameHeader b = true ∧
        (c.replace idx b).2 =
          { blocks := c.blocks.set idx (cur.set_body b.get_body),
            cost := c.cost,
            mined_blobs := Chain.addMinedBlobs idx (cur.set_body b.get_body) c.mined_blobs }) := by
  unfold Chain.replace
  by_cases hidx : idx = 0 ∨ c.blocks.length ≤ idx
  · left
    rw [if_pos hidx]
    refine ⟨rfl, rfl, ?_⟩
    rintro ⟨h1, h2, -⟩
    rcases hidx with h | h <;> omega
  · have hlt : idx < c.blocks.length := by
      rcases Nat.lt_or_ge idx c.blocks.length with h | h
      · exact h
      · exact absurd (Or.inr h) hidx
    have hpos : 0 < idx := by
      rcases Nat.eq_zero_or_pos idx with h | h
      · exact absurd (Or.inl h) hidx
      · exact h
    rw [if_neg hidx]
    cases hcur : c.blocks[idx]? with
    | none =>
      exact absurd (List.getElem?_eq_none_iff.mp hcur) (Nat.not_le.mpr hlt)
    | some cur =>
      dsimp only
      by_cases hhdr : cur.sameHeader b = true
      · right
        rw [if_pos hhdr]
        exact ⟨rfl, hpos, hlt, cur, rfl, hhdr, rfl⟩
      · left
        rw [if_neg hhdr]
        refine ⟨rfl, rfl, ?_⟩
        rintro ⟨-, -, cur', hcur', hhdr'⟩
        cases hcur'
        exact hhdr hhdr'

/-- C2 (amended): replace succeeds iff 0 < idx < len(blocks) and the
given block's header equals the resident block's header; on success the
block at idx keeps its header and takes on exactly the given block's
body (so has_body() afterwards equals the given block's has_body(), and
becomes true precisely when the given block carries a body); on failure
the chain - blocks, cost and mined_blobs - is completely unchanged. -/
theorem chain_replace_spec (c : Chain) (idx : Nat) (b : Block) :
    ((c.replace idx b).1 = true ↔
      (0 < idx ∧ idx < c.blocks.length ∧
        ∃ cur, c.blocks[idx]? = some cur ∧ cur.sameHeader b = true)) ∧
    ((c.replace idx b).1 = true →
      ∃ cur, c.blocks[idx]? = some cur ∧
        (c.replace idx b).2.blocks = c.blocks.set idx (cur.set_body b.get_body) ∧
        (cur.set_body b.get_body).body = b.body ∧
        (cur.set_body b.get_body).has_body = b.has_body ∧
        (cur.set_body b.get_body).sameHeaderP cur) ∧
    ((c.replace idx b).1 = false → (c.replace idx b).2 = c) := by
  rcases Chain.replace_cases c idx b with ⟨hres, hunc, hneg⟩ | ⟨hres, hpos, hlt, cur, hcur, hhdr, heq⟩
  · refine ⟨?_, ?_, fun _ => hunc⟩
    · constructor
      · intro h
        rw [hres] at h
        cases h
      · intro hp
        exact absurd hp hneg
    · intro h
      rw [hres] at h
      cases h
  · refine ⟨iff_of_true hres ⟨hpos, hlt, cur, hcur, hhdr⟩, ?_, ?_⟩
    · intro _
      refine ⟨cur, hcur, ?_, rfl, rfl, ⟨rfl, rfl, rfl⟩⟩
      rw [heq]
    · intro h
      rw [hres] at h
      cases h

/-- C2 witness: on a concrete two-block chain, replacing at index 1
with a body-bearing block of equal header succeeds, and replacing at
the out-of-range index 2 leaves the chain unchanged. -/
theorem chain_replace_spec_witness :
    ((Chain.init.add ⟨1, 5, 0, none⟩).replace 1 ⟨1, 5, 0, some [[2]]⟩).1 = true ∧
    ((Chain.init.add ⟨1, 5, 0, none⟩).replace 2 ⟨1, 5, 0, some [[2]]⟩).2 =
      Chain.init.add ⟨1, 5, 0, none⟩ :=
  ⟨(chain_replace_spec (Chain.init.add ⟨1, 5, 0, none⟩) 1 ⟨1, 5, 0, some [[2]]⟩).1.mpr
      ⟨by decide, by decide, ⟨1, 5, 0, none⟩, by decide, by decide⟩,
    (chain_replace_spec (Chain.init.add ⟨1, 5, 0, none⟩) 2 ⟨1, 5, 0, some [[2]]⟩).2.2
      (by decide)⟩

/-- C2 counterexample: replace accepts a replacement block that carries
no body (only the index range and the header are checked), so a call
can succeed while blocks[idx].has_body() ends up false, refuting the
claim that success always makes has_body() true. -/
theorem chain_replace_claim_counterexample :
    ((Chain.init.add ⟨1, 5, 0, some [[0]]⟩).replace 1 ⟨1, 5, 0, none⟩).1 = true ∧
    (((Chain.init.add ⟨1, 5, 0, some [[0]]⟩).replace 1 ⟨1, 5, 0, none⟩).2.blocks.getD 1
        Block.genesis).has_body = false := by
  decide

/-- Setting the body never changes a block's cost (cost is a function
of the header's difficulty only). -/
theorem Block.set_body_get_cost (b : Block) (bd : Option (List Blob)) :
    (b.set_body bd).get_cost = b.get_cost := rfl

/-- Replacing a list element by one of equal cost keeps the cost sum. -/
theorem sum_map_set_same_cost (l : List Block) (i : Nat) (b' cur : Block)
    (h : l[i]? = some cur) (hc : b'.get_cost = cur.get_cost) :
    ((l.set i b').map Block.get_cost).sum = (l.map Block.get_cost).sum := by
  induction l generalizing i with
  | nil => simp at h
  | cons a l ih =>
    match i with
    | 0 =>
      simp only [List.getElem?_cons_zero, Option.some_inj] at h
      subst h
      simp only [List.set, List.map_cons, List.sum_cons, hc]
    | i + 1 =>
      simp only [List.getElem?_cons_succ] at h
      simp only [List.set, List.map_cons, List.sum_cons, ih i h]

/-- The cost sum after a Python-style insert is the inserted block's
cost plus the old sum. -/
theorem sum_map_pyInsert (l : List Block) (i : Nat) (b : Block) :
    ((pyInsert l i b).map Block.get_cost).sum =
      b.get_cost + (l.map Block.get_cost).sum := by
  have hsplit : (l.map Block.get_cost).sum =
      ((l.take i).map Block.get_cost).sum + ((l.drop i).map Block.get_cost).sum := by
    conv_lhs => rw [← List.take_append_drop i l]
    simp [List.sum_append]
  unfold pyInsert
  simp only [List.map_append, List.sum_append, List.map_cons, List.sum_cons, hsplit]
  omega

/-- Each of add, insert and replace preserves the cost invariant. -/
theorem costOk_apply (c : Chain) (op : Op) (h : costOk c) : costOk (c.apply op) := by
  cases op with
  | add b =>
    simp only [Chain.apply, Chain.add, costOk] at h ⊢
    simp [h, List.sum_append]
  | insert idx b =>
    simp only [Chain.apply, Chain.insert, costOk] at h ⊢
    rw [sum_map_pyInsert, h]
    omega
  | replace idx b =>
    simp only [Chain.apply]
    rcases Chain.replace_cases c idx b with ⟨_, hunc, _⟩ | ⟨_, _, _, cur, hcur, _, heq⟩
    · rw [hunc]
      exact h
    · rw [heq]
      simp only [costOk] at h ⊢
      rw [sum_map_set_same_cost c.blocks idx _ cur hcur (Block.set_body_get_cost cur b.get_body)]
      exact h

/-- C4: after any sequence of add, insert and replace calls starting
from a freshly constructed chain, get_cost() equals the sum of
block.get_cost() over every block currently in the chain (genesis
included). -/
theorem chain_cost_invariant (ops : List Op) :
    (Chain.init.run ops).get_cost =
      ((Chain.init.run ops).blocks.map Block.get_cost).sum := by
  suffices h : ∀ (ops : List Op) (c : Chain), costOk c → costOk (c.run ops) by
    exact h ops Chain.init (by simp [costOk, Chain.init])
  intro ops
  induction ops with
  | nil => intro c hc; exact hc
  | cons op rest ih =>
    intro c hc
    exact ih (c.apply op) (costOk_apply c op hc)

/-- C9: a freshly constructed chain, holding only the genesis block,
has cost equal to the genesis cost, is valid, is complete, and has no
bodiless indices. -/
theorem chain_init_genesis_only :
    Chain.init.get_cost = Block.genesis.get_cost ∧
    Chain.init.is_valid = true ∧
    Chain.init.is_complete = true ∧
    Chain.init.get_bodiless_indices = [] := by
  refine ⟨rfl, by decide, by decide, rfl⟩

/-- Feeding blobs to a builder never changes the parent hash it was
seeded with. -/
theorem foldl_builder_add_prev_hash (bs : List Blob) (bb : BlockBuilder) :
    (bs.foldl BlockBuilder.add bb).prev_hash = bb.prev_hash := by
  induction bs generalizing bb with
  | nil => rfl
  | cons blob rest ih => exact (ih (bb.add blob)).trans rfl

/-- C8: Chain.next does not modify the chain - blocks, cost and
mined_blobs are returned unchanged - and the candidate block it
returns has prev_hash equal to the hash of the current tail block. -/
theorem chain_next_spec (c : Chain) (d : Nat) (blobs : List Blob) (h : c.blocks ≠ []) :
    (c.next d blobs).2 = c ∧
    (c.next d blobs).1.prev_hash = (c.blocks.getLast h).hash := by
  refine ⟨rfl, ?_⟩
  have hlast : c.blocks.getLastD Block.genesis = c.blocks.getLast h := by
    rw [List.getLastD_eq_getLast?, List.getLast?_eq_getLast c.blocks h]
    rfl
  show (blobs.foldl BlockBuilder.add
      { prev_hash := (c.blocks.getLastD Block.genesis).hash, difficulty := d,
        blobs := [] }).build.prev_hash = (c.blocks.getLast h).hash
  rw [BlockBuilder.build, foldl_builder_add_prev_hash, hlast]

/-- C8 witness: next on the fresh chain leaves it unchanged. -/
theorem chain_next_spec_witness :
    Chain.init.blocks ≠ [] ∧ (Chain.init.next 3 [[7]]).2 = Chain.init :=
  ⟨by decide, (chain_next_spec Chain.init 3 [[7]] (by decide)).1⟩

/-- Parsing length-prefixed blobs is a left inverse of encoding them. -/
theorem parseBlobs_encBlobList (blobs : List Blob) :
    parseBlobs blobs.length (encBlobList blobs) = Except.ok blobs := by
  induction blobs with
  | nil => rfl
  | cons b rest ih =>
    have hlen : ¬(b ++ encBlobList rest).length < b.length := by
      simp [List.length_append]
    show parseBlobs (rest.length + 1) (b.length :: (b ++ encBlobList rest)) =
      Except.ok (b :: rest)
    simp only [parseBlobs]
    rw [if_neg hlen, List.drop_left, List.take_left, ih]

/-- Parsing length-prefixed records is a left inverse of framing them. -/
theorem parseRecords_encRecords (rs : List (List Nat)) :
    parseRecords rs.length (encRecords rs) = Except.ok rs := by
  induction rs with
  | nil => rfl
  | cons r rest ih =>
    have hlen : ¬(r ++ encRecords rest).length < r.length := by
      simp [List.length_append]
    show parseRecords (rest.length + 1) (r.length :: (r ++ encRecords rest)) =
      Except.ok (r :: rest)
    simp only [parseRecords]
    rw [if_neg hlen, List.drop_left, List.take_left, ih]

/-- Parsing an encoded chain recovers the per-block records. -/
theorem parseChainMsg_encode (c : Chain) (ib : Bool) :
    parseChainMsg (c.encode ib) = Except.ok (c.blocks.map fun b => b.encode ib) := by
  show parseRecords c.blocks.length (encRecords (c.blocks.map fun b => b.encode ib)) =
    Except.ok (c.blocks.map fun b => b.encode ib)
  have hl : c.blocks.length = (c.blocks.map fun b => b.encode ib).length := by simp
  rw [hl, parseRecords_encRecords]

/-- Decoding a block record encoded with bodies recovers the block
exactly, body included. -/
theorem block_decode_encode_true (b : Block) :
    Block.decode (b.encode true) true = Except.ok b := by
  obtain ⟨ph, n, d, bd⟩ := b
  cases bd with
  | none => rfl
  | some blobs =>
    show Block.decode ([ph, n, d] ++ 1 :: blobs.length :: encBlobList blobs) true =
      Except.ok { prev_hash := ph, nonce := n, difficulty := d, body := some blobs }
    simp only [List.cons_append, List.nil_append, Block.decode, if_pos]
    rw [parseBlobs_encBlobList]

/-- Decoding a headers-only record recovers the block's header with no
body. -/
theorem block_decode_encode_false (b : Block) :
    Block.decode (b.encode false) false = Except.ok b.dropBody := by
  obtain ⟨ph, n, d, bd⟩ := b
  cases bd <;> rfl

/-- Decoding a list of body-bearing records recovers the blocks. -/
theorem decodeAll_encode_true (l : List Block) :
    decodeAll (l.map fun b => b.encode true) true = Except.ok l := by
  induction l with
  | nil => rfl
  | cons b rest ih =>
    simp only [List.map_cons, decodeAll, block_decode_encode_true, ih]

/-- Decoding a list of headers-only records recovers the bodiless
blocks. -/
theorem decodeAll_encode_false (l : List Block) :
    decodeAll (l.map fun b => b.encode false) false =
      Except.ok (l.map Block.dropBody) := by
  induction l with
  | nil => rfl
  | cons b rest ih =>
    simp only [List.map_cons, decodeAll, block_decode_encode_false, ih]

/-- The repaired decode-and-add loop equals decoding all records first
and then adding the blocks in order. -/
theorem decodeFoldFixed_eq (recs : List (List Nat)) (hb : Bool) (ch : Chain) :
    decodeFoldFixed recs hb ch =
      match decodeAll recs hb with
      | Except.error e => Except.error e
      | Except.ok bs => Except.ok (bs.foldl Chain.add ch) := by
  induction recs generalizing ch with
  | nil => rfl
  | cons r rest ih =>
    simp only [decodeFoldFixed, decodeAll]
    cases Block.decode r hb with
    | error e => rfl
    | ok b =>
      dsimp only
      rw [ih (ch.add b)]
      cases decodeAll rest hb with
      | error e => rfl
      | ok bs => rfl

/-- Adding blocks in order appends them to the block list. -/
theorem foldl_add_blocks (bs : List Block) (ch : Chain) :
    (bs.foldl Chain.add ch).blocks = ch.blocks ++ bs := by
  induction bs generalizing ch with
  | nil =>
    rw [List.foldl_nil, List.append_nil]
  | cons b rest ih =>
    rw [List.foldl_cons, ih (ch.add b)]
    show (ch.blocks ++ [b]) ++ rest = ch.blocks ++ b :: rest
    rw [List.append_assoc]
    rfl

/-- The full add call succeeds on a body-bearing block and performs
the add state change. -/
theorem addE_ok_of_has_body (c : Chain) (b : Block) (h : b.has_body = true) :
    c.addE b = Except.ok (c.add b) := by
  unfold Chain.addE
  cases hb : b.get_body with
  | none =>
    have hbb : b.body = none := hb
    rw [Block.has_body, hbb] at h
    cases h
  | some blobs => rfl

/-- A successful full add call means the block had a body and the
result is the add state change. -/
theorem addE_ok_inv (c : Chain) (b : Block) (ch2 : Chain)
    (h : c.addE b = Except.ok ch2) :
    b.has_body = true ∧ ch2 = c.add b := by
  unfold Chain.addE at h
  cases hb : b.get_body with
  | none =>
    rw [hb] at h
    cases h
  | some blobs =>
    rw [hb] at h
    dsimp only at h
    cases h
    refine ⟨?_, rfl⟩
    have hbb : b.body = some blobs := hb
    rw [Block.has_body, hbb]
    rfl

/-- A successful run of the decode loop means every record decoded to
a body-bearing block and the result is the fold of the add state
changes. -/
theorem decodeFold_ok (recs : List (List Nat)) (hb : Bool) (ch ch' : Chain)
    (h : decodeFold recs hb ch = Except.ok ch') :
    ∃ bs, decodeAll recs hb = Except.ok bs ∧ (∀ b ∈ bs, b.has_body = true) ∧
      ch' = bs.foldl Chain.add ch := by
  induction recs generalizing ch with
  | nil =>
    cases h
    exact ⟨[], rfl, by simp, rfl⟩
  | cons r rest ih =>
    simp only [decodeFold] at h
    cases hd : Block.decode r hb with
    | error e =>
      rw [hd] at h
      cases h
    | ok b =>
      rw [hd] at h
      dsimp only at h
      cases ha : ch.addE b with
      | error s =>
        rw [ha] at h
        cases h
      | ok ch2 =>
        rw [ha] at h
        dsimp only at h
        obtain ⟨hhb, hch2⟩ := addE_ok_inv ch b ch2 ha
        subst hch2
        obtain ⟨bs, hall, hbodied, hfold⟩ := ih (ch.add b) h
        refine ⟨b :: bs, ?_, ?_, ?_⟩
        · simp only [decodeAll]
          rw [hd]
          dsimp only
          rw [hall]
        · intro b' hb'
          rcases List.mem_cons.mp hb' with rfl | hmem
          · exact hhb
          · exact hbodied b' hmem
        · rw [hfold]
          rfl

/-- When every record before some point decodes to a body-bearing
block and the record at that point fails to decode, the loop surfaces
that record's DecodeError. -/
theorem decodeFold_first_decode_error (pre : List (List Nat)) (r : List Nat)
    (post : List (List Nat)) (hb : Bool) (e : DecodeError) (ch : Chain)
    (hpre : ∀ p ∈ pre, ∃ blk, Block.decode p hb = Except.ok blk ∧ blk.has_body = true)
    (hr : Block.decode r hb = Except.error e) :
    decodeFold (pre ++ r :: post) hb ch = Except.error (ChainDecodeErr.decodeErr e) := by
  induction pre generalizing ch with
  | nil =>
    show decodeFold (r :: post) hb ch = _
    simp only [decodeFold]
    rw [hr]
  | cons p pre' ih =>
    obtain ⟨blk, hdec, hbody⟩ := hpre p (List.mem_cons_self p pre')
    show decodeFold (p :: (pre' ++ r :: post)) hb ch = _
    simp only [decodeFold]
    rw [hdec]
    dsimp only
    rw [addE_ok_of_has_body ch blk hbody]
    dsimp only
    exact ih (ch.add blk) (fun q hq => hpre q (List.mem_cons_of_mem p hq))

/-- Every block of a list has the same header as its bodiless copy. -/
theorem forall₂_dropBody (l : List Block) :
    List.Forall₂ Block.sameHeaderP l (l.map Block.dropBody) := by
  induction l with
  | nil => exact List.Forall₂.nil
  | cons b rest ih => exact List.Forall₂.cons ⟨rfl, rfl, rfl⟩ ih

/-- C7: Chain.decode parses the wire record, skips the first block
record, decodes the remaining records with the has_bodies flag and
adds the blocks sequentially to a fresh chain: a successful result is
exactly the genesis followed by the sequentially added decoded blocks
(each of which carried a body, since the add of a bodiless block
raises instead - see C10); malformed framing raises the parser's
DecodeError, and when every record the loop reaches first decodes to a
body-bearing block and is added, a record that then fails to decode
propagates its DecodeError.  The Except result carries no chain on any
failure. -/
theorem chain_decode_spec (data : List Nat) (hb : Bool) :
    (∀ ch, Chain.decode data hb = Except.ok ch →
      ∃ recs bs, parseChainMsg data = Except.ok recs ∧
        decodeAll (recs.drop 1) hb = Except.ok bs ∧
        (∀ b ∈ bs, b.has_body = true) ∧
        ch = bs.foldl Chain.add Chain.init ∧
        ch.blocks = Block.genesis :: bs) ∧
    (∀ e, parseChainMsg data = Except.error e →
      Chain.decode data hb = Except.error (ChainDecodeErr.decodeErr e)) ∧
    (∀ recs pre r post e, parseChainMsg data = Except.ok recs →
      recs.drop 1 = pre ++ r :: post →
      (∀ p ∈ pre, ∃ blk, Block.decode p hb = Except.ok blk ∧ blk.has_body = true) →
      Block.decode r hb = Except.error e →
      Chain.decode data hb = Except.error (ChainDecodeErr.decodeErr e)) := by
  refine ⟨?_, ?_, ?_⟩
  · intro ch hch
    unfold Chain.decode at hch
    cases hp : parseChainMsg data with
    | error e =>
      rw [hp] at hch
      cases hch
    | ok recs =>
      rw [hp] at hch
      dsimp only at hch
      obtain ⟨bs, hall, hbodied, hfold⟩ := decodeFold_ok (recs.drop 1) hb Chain.init ch hch
      refine ⟨recs, bs, rfl, hall, hbodied, hfold, ?_⟩
      rw [hfold, foldl_add_blocks]
      rfl
  · intro e hp
    unfold Chain.decode
    rw [hp]
  · intro recs pre r post e hp hsplit hpre hr
    unfold Chain.decode
    rw [hp]
    dsimp only
    rw [hsplit]
    exact decodeFold_first_decode_error pre r post hb e Chain.init hpre hr

/-- C7 witness: decoding the encoding of a concrete two-block chain
succeeds and yields genesis followed by the decoded body-bearing
block, and decoding bytes with malformed framing raises the
DecodeError. -/
theorem chain_decode_spec_witness :
    (∃ recs bs,
      parseChainMsg ((Chain.init.add
        { prev_hash := 1, nonce := 2, difficulty := 0, body := some [[5]] }).encode true) =
        Except.ok recs ∧
      decodeAll (recs.drop 1) true = Except.ok bs ∧
      (∀ b ∈ bs, b.has_body = true) ∧
      Chain.init.add { prev_hash := 1, nonce := 2, difficulty := 0, body := some [[5]] } =
        bs.foldl Chain.add Chain.init ∧
      (Chain.init.add
        { prev_hash := 1, nonce := 2, difficulty := 0, body := some [[5]] }).blocks =
        Block.genesis :: bs) ∧
    Chain.decode [3] true = Except.error (ChainDecodeErr.decodeErr DecodeError.malformed) :=
  ⟨(chain_decode_spec ((Chain.init.add
        { prev_hash := 1, nonce := 2, difficulty := 0, body := some [[5]] }).encode true) true).1
      (Chain.init.add { prev_hash := 1, nonce := 2, difficulty := 0, body := some [[5]] })
      (by decide),
    (chain_decode_spec [3] true).2.1 DecodeError.malformed (by decide)⟩

/-- The round-trip the spec asserts (its section 8) holds for the
repaired decode (decodeFixed, the line-60 slip guarded): for a chain
anchored at the genesis block, decoding the body-bearing encoding
reproduces the exact block sequence, and decoding the headers-only
encoding reproduces the headers with every non-genesis block bodiless.
This backs the code-bug verdict on the round-trip claim: every other
part of the pipeline delivers exactly the specified result, and only
the unguarded body access in add breaks it (see
chain_headerless_decode_code_bug). -/
theorem chain_decodeFixed_roundtrip (c : Chain)
    (h : c.blocks.head? = some Block.genesis) :
    (∃ c1, Chain.decodeFixed (c.encode true) true = Except.ok c1 ∧ c1.blocks = c.blocks) ∧
    (∃ c2, Chain.decodeFixed (c.encode false) false = Except.ok c2 ∧
      List.Forall₂ Block.sameHeaderP c.blocks c2.blocks ∧
      ∀ i b2, c2.blocks[i + 1]? = some b2 → b2.has_body = false) := by
  obtain ⟨tl, hbl⟩ : ∃ tl, c.blocks = Block.genesis :: tl := by
    cases hbv : c.blocks with
    | nil => rw [hbv] at h; cases h
    | cons g tl =>
      rw [hbv] at h
      simp only [List.head?_cons, Option.some_inj] at h
      exact ⟨tl, by rw [h]⟩
  constructor
  · refine ⟨(tl.foldl Chain.add Chain.init), ?_, ?_⟩
    · unfold Chain.decodeFixed
      rw [parseChainMsg_encode]
      dsimp only
      have hdrop : ((c.blocks.map fun b => b.encode true).drop 1) =
          tl.map fun b => b.encode true := by
        rw [hbl]
        rfl
      rw [hdrop, decodeFoldFixed_eq, decodeAll_encode_true]
    · rw [foldl_add_blocks, hbl]
      rfl
  · refine ⟨((tl.map Block.dropBody).foldl Chain.add Chain.init), ?_, ?_, ?_⟩
    · unfold Chain.decodeFixed
      rw [parseChainMsg_encode]
      dsimp only
      have hdrop : ((c.blocks.map fun b => b.encode false).drop 1) =
          tl.map fun b => b.encode false := by
        rw [hbl]
        rfl
      rw [hdrop, decodeFoldFixed_eq, decodeAll_encode_false]
    · rw [foldl_add_blocks, hbl]
      show List.Forall₂ Block.sameHeaderP (Block.genesis :: tl)
        (Block.genesis :: tl.map Block.dropBody)
      exact List.Forall₂.cons ⟨rfl, rfl, rfl⟩ (forall₂_dropBody tl)
    · intro i b2 hb2
      rw [foldl_add_blocks] at hb2
      obtain ⟨b0, htl, hdr⟩ : ∃ a, tl[i]? = some a ∧ a.dropBody = b2 := by
        simpa [Chain.init] using hb2
      rw [← hdr]
      rfl

/-- C3 (code bug): on the genesis chain extended by one body-bearing
block, the headers-only round trip the claim (and the spec's section
8) asserts does not happen: the framing parses, the single non-first
record decodes to the expected header-equal bodiless block - so no
DecodeError is possible - yet Chain.decode raises the AttributeError
of chain.py line 60 when add receives that bodiless block, instead of
returning the headers-only chain. -/
theorem chain_headerless_decode_code_bug :
    parseChainMsg ((Chain.init.add
      { prev_hash := 9, nonce := 4, difficulty := 0, body := some [[1, 2]] }).encode false) =
      Except.ok [[0, 0, 0, 0], [9, 4, 0, 0]] ∧
    decodeAll [[9, 4, 0, 0]] false =
      Except.ok [{ prev_hash := 9, nonce := 4, difficulty := 0, body := none }] ∧
    Chain.decode ((Chain.init.add
      { prev_hash := 9, nonce := 4, difficulty := 0, body := some [[1, 2]] }).encode false)
      false = Except.error ChainDecodeErr.attributeErr := by
  decide

/-- Membership in the entries contributed by one body: exactly the
pairs (hash of the blob at jj, bidx, j0 + jj). -/
theorem mem_blobEntries (blobs : List Blob) (bidx j0 k i j : Nat) :
    (k, i, j) ∈ blobEntries bidx j0 blobs ↔
      (i = bidx ∧ ∃ jj blob, blobs[jj]? = some blob ∧ j = j0 + jj ∧ blobHash blob = k) := by
  induction blobs generalizing j0 with
  | nil =>
    simp [blobEntries]
  | cons blob rest ih =>
    simp only [blobEntries, List.mem_cons]
    constructor
    · rintro (heq | hmem)
      · cases heq
        exact ⟨rfl, 0, blob, by simp, by omega, rfl⟩
      · obtain ⟨hi, jj, bl, hget, hj, hh⟩ := (ih (j0 + 1)).mp hmem
        exact ⟨hi, jj + 1, bl, by simpa using hget, by omega, hh⟩
    · rintro ⟨hi, jj, bl, hget, hj, hh⟩
      match jj, hget, hj with
      | 0, hget, hj =>
        left
        simp only [List.getElem?_cons_zero, Option.some_inj] at hget
        subst hget
        subst hi
        have hj0 : j = j0 := by omega
        subst hj0
        rw [hh]
      | jj + 1, hget, hj =>
        right
        exact (ih (j0 + 1)).mpr ⟨hi, jj, bl, by simpa using hget, by omega, hh⟩

/-- Membership in the blob index after registering one block: an old
entry, or an entry of the block's body. -/
theorem mem_addMinedBlobs (bidx : Nat) (b : Block) (mb : List (Nat × Nat × Nat)) (k i j : Nat) :
    (k, i, j) ∈ Chain.addMinedBlobs bidx b mb ↔
      ((k, i, j) ∈ mb ∨
        ∃ blobs, b.body = some blobs ∧ (k, i, j) ∈ blobEntries bidx 0 blobs) := by
  unfold Chain.addMinedBlobs
  cases hb : b.body with
  | none => simp
  | some blobs => simp [List.mem_append]

/-- Registering a block never discards existing entries. -/
theorem mem_addMinedBlobs_of_mem (bidx : Nat) (b : Block) (mb : List (Nat × Nat × Nat))
    (e : Nat × Nat × Nat) (h : e ∈ mb) : e ∈ Chain.addMinedBlobs bidx b mb := by
  unfold Chain.addMinedBlobs
  cases b.body with
  | none => exact h
  | some blobs => exact List.mem_append_left _ h

/-- The fresh chain's empty blob index is exact. -/
theorem minedOk_init : MinedOk Chain.init := by
  constructor
  · intro k i j hmem
    simp [Chain.init] at hmem
  · intro i b hb blobs hbody j blob hblob
    match i, hb with
    | 0, hb =>
      have hbg : Block.genesis = b := by simpa [Chain.init] using hb
      rw [← hbg] at hbody
      rw [show Block.genesis.body = some [] from rfl] at hbody
      cases hbody
      simp at hblob
    | n + 1, hb => simp [Chain.init] at hb

/-- Appending a block at the tail keeps the blob index exact. -/
theorem minedOk_add (c : Chain) (b : Block) (h : MinedOk c) : MinedOk (c.add b) := by
  obtain ⟨hs, hc⟩ := h
  constructor
  · intro k i j hmem
    rcases (mem_addMinedBlobs c.blocks.length b c.mined_blobs k i j).mp hmem with
      hold | ⟨blobs, hbody, hent⟩
    · obtain ⟨blk, hblk, blobs, hbody, blob, hblob, hhash⟩ := hs k i j hold
      refine ⟨blk, ?_, blobs, hbody, blob, hblob, hhash⟩
      have hlt : i < c.blocks.length := (List.getElem?_eq_some.mp hblk).1
      show (c.blocks ++ [b])[i]? = some blk
      rw [List.getElem?_append_left hlt]
      exact hblk
    · obtain ⟨hi, jj, blob, hget, hj, hhash⟩ :=
        (mem_blobEntries blobs c.blocks.length 0 k i j).mp hent
      subst hi
      refine ⟨b, ?_, blobs, hbody, blob, ?_, hhash⟩
      · show (c.blocks ++ [b])[c.blocks.length]? = some b
        exact List.getElem?_concat_length c.blocks b
      · have hjj : j = jj := by omega
        rw [hjj]
        exact hget
  · intro i blk hblk blobs hbody j blob hblob
    have hblk2 : (c.blocks ++ [b])[i]? = some blk := hblk
    by_cases hlt : i < c.blocks.length
    · rw [List.getElem?_append_left hlt] at hblk2
      exact mem_addMinedBlobs_of_mem c.blocks.length b c.mined_blobs _
        (hc i blk hblk2 blobs hbody j blob hblob)
    · have hge : c.blocks.length ≤ i := Nat.not_lt.mp hlt
      rw [List.getElem?_append_right hge] at hblk2
      have hi0 : i - c.blocks.length = 0 ∧ b = blk := by
        cases hd : i - c.blocks.length with
        | zero =>
          rw [hd] at hblk2
          exact ⟨rfl, by simpa using hblk2⟩
        | succ n =>
          rw [hd] at hblk2
          simp at hblk2
      obtain ⟨hi0, hbb⟩ := hi0
      have hieq : i = c.blocks.length := by omega
      subst hieq
      rw [← hbb] at hbody
      apply (mem_addMinedBlobs c.blocks.length b c.mined_blobs (blobHash blob)
        c.blocks.length j).mpr
      right
      refine ⟨blobs, hbody, ?_⟩
      exact (mem_blobEntries blobs c.blocks.length 0 (blobHash blob) c.blocks.length j).mpr
        ⟨rfl, j, blob, hblob, by omega, rfl⟩

/-- Inserting at the tail index is the same operation as add. -/
theorem insert_tail_eq_add (c : Chain) (b : Block) :
    c.insert c.blocks.length b = c.add b := by
  unfold Chain.insert Chain.add pyInsert
  rw [List.take_length, List.drop_length]

/-- Replacing the body of a currently bodiless block keeps the blob
index exact: the target contributed no entries yet, and the new body's
entries describe the block now at that index. -/
theorem minedOk_replace (c : Chain) (idx : Nat) (b : Block) (h : MinedOk c)
    (hsafe : ∀ cur, c.blocks[idx]? = some cur → cur.has_body = false) :
    MinedOk (c.replace idx b).2 := by
  rcases Chain.replace_cases c idx b with ⟨-, hunc, -⟩ | ⟨-, hpos, hlt, cur, hcur, hhdr, heq⟩
  · rw [hunc]
    exact h
  · obtain ⟨hs, hc⟩ := h
    have hnb : cur.body = none := by
      have hcb := hsafe cur hcur
      cases hx : cur.body with
      | none => rfl
      | some bl =>
        rw [Block.has_body, hx] at hcb
        cases hcb
    have hnold : ∀ k j', (k, idx, j') ∈ c.mined_blobs → False := by
      intro k j' hmem
      obtain ⟨blk, hblk, blobs, hbody, -⟩ := hs k idx j' hmem
      rw [hcur] at hblk
      cases hblk
      rw [hnb] at hbody
      cases hbody
    rw [heq]
    constructor
    · intro k i j hmem
      rcases (mem_addMinedBlobs idx (cur.set_body b.get_body) c.mined_blobs k i j).mp hmem with
        hold | ⟨blobs, hbody, hent⟩
      · by_cases hieq : i = idx
        · subst hieq
          exact (hnold k j hold).elim
        · obtain ⟨blk, hblk, blobs, hbody, blob, hblob, hhash⟩ := hs k i j hold
          refine ⟨blk, ?_, blobs, hbody, blob, hblob, hhash⟩
          show (c.blocks.set idx (cur.set_body b.get_body))[i]? = some blk
          rw [List.getElem?_set_ne (fun hh => hieq hh.symm)]
          exact hblk
      · obtain ⟨hi, jj, blob, hget, hj, hhash⟩ := (mem_blobEntries blobs idx 0 k i j).mp hent
        subst hi
        refine ⟨cur.set_body b.get_body, ?_, blobs, hbody, blob, ?_, hhash⟩
        · show (c.blocks.set i (cur.set_body b.get_body))[i]? =
            some (cur.set_body b.get_body)
          exact List.getElem?_set_eq_of_lt _ hlt
        · have hjj : j = jj := by omega
          rw [hjj]
          exact hget
    · intro i blk hblk blobs hbody j blob hblob
      by_cases hieq : i = idx
      · subst hieq
        have hset : (c.blocks.set i (cur.set_body b.get_body))[i]? =
            some (cur.set_body b.get_body) :=
          List.getElem?_set_eq_of_lt _ hlt
        have hblk2 : (c.blocks.set i (cur.set_body b.get_body))[i]? = some blk := hblk
        rw [hset] at hblk2
        cases hblk2
        apply (mem_addMinedBlobs i (cur.set_body b.get_body) c.mined_blobs
          (blobHash blob) i j).mpr
        right
        refine ⟨blobs, hbody, ?_⟩
        exact (mem_blobEntries blobs i 0 (blobHash blob) i j).mpr
          ⟨rfl, j, blob, hblob, by omega, rfl⟩
      · have hset : (c.blocks.set idx (cur.set_body b.get_body))[i]? = c.blocks[i]? :=
          List.getElem?_set_ne (fun hh => hieq hh.symm)
        have hblk2 : (c.blocks.set idx (cur.set_body b.get_body))[i]? = some blk := hblk
        rw [hset] at hblk2
        exact mem_addMinedBlobs_of_mem idx (cur.set_body b.get_body) c.mined_blobs _
          (hc i blk hblk2 blobs hbody j blob hblob)

/-- Safe calls preserve the exactness of the blob index. -/
theorem minedOk_apply (c : Chain) (op : Op) (h : MinedOk c) (hs : safeOp c op = true) :
    MinedOk (c.apply op) := by
  cases op with
  | add b => exact minedOk_add c b h
  | insert idx b =>
    have hidx : idx = c.blocks.length := by
      simpa [safeOp] using hs
    show MinedOk (c.insert idx b)
    rw [hidx, insert_tail_eq_add]
    exact minedOk_add c b h
  | replace idx b =>
    apply minedOk_replace c idx b h
    intro cur hcur
    simp only [safeOp] at hs
    rw [hcur] at hs
    simpa using hs

/-- C5 (amended): after any sequence of add calls, insert calls at the
tail index, and replace calls aimed at a currently bodiless block,
mined_blobs reflects exactly the blobs of the blocks that currently
have a body: every entry (k, (i, j)) names the block currently at
index i, whose body's blob at index j hashes to k (so bodiless blocks
contribute no entries), and conversely every blob of every
body-bearing block is recorded at its location. -/
theorem chain_mined_blobs_invariant (ops : List Op) (h : safeOps Chain.init ops = true) :
    MinedOk (Chain.init.run ops) := by
  suffices H : ∀ (ops : List Op) (c : Chain), MinedOk c → safeOps c ops = true →
      MinedOk (c.run ops) from H ops Chain.init minedOk_init h
  intro ops
  induction ops with
  | nil =>
    intro c hc _
    exact hc
  | cons op rest ih =>
    intro c hc hsa
    simp only [safeOps, Bool.and_eq_true] at hsa
    exact ih (c.apply op) (minedOk_apply c op hc hsa.1) hsa.2

/-- C5 witness: a safe sequence - add a bodiless block, then attach its
body by replace - yields an exact blob index. -/
theorem chain_mined_blobs_invariant_witness :
    safeOps Chain.init
      [Op.add { prev_hash := 1, nonce := 0, difficulty := 0, body := none },
       Op.replace 1 { prev_hash := 1, nonce := 0, difficulty := 0, body := some [[3]] }] =
      true ∧
    MinedOk (Chain.init.run
      [Op.add { prev_hash := 1, nonce := 0, difficulty := 0, body := none },
       Op.replace 1 { prev_hash := 1, nonce := 0, difficulty := 0, body := some [[3]] }]) :=
  ⟨by decide,
    chain_mined_blobs_invariant
      [Op.add { prev_hash := 1, nonce := 0, difficulty := 0, body := none },
       Op.replace 1 { prev_hash := 1, nonce := 0, difficulty := 0, body := some [[3]] }]
      (by decide)⟩

/-- C5 counterexample: a non-tail insert shifts the blocks after the
insertion point without renumbering their existing mined_blobs
entries, so an entry ends up naming a location whose blob hashes to a
different key: the claim fails for sequences that include insert. -/
theorem chain_mined_blobs_claim_counterexample :
    ¬ MinedOk (Chain.init.run
      [Op.add { prev_hash := 1, nonce := 0, difficulty := 0, body := some [[0]] },
       Op.insert 1 { prev_hash := 2, nonce := 0, difficulty := 0, body := some [[1]] }]) := by
  intro h
  obtain ⟨b, hb, blobs, hblobs, blob, hblob, hhash⟩ := h.1 1800 1 0 (by decide)
  have hb1 : (Chain.init.run
      [Op.add { prev_hash := 1, nonce := 0, difficulty := 0, body := some [[0]] },
       Op.insert 1 { prev_hash := 2, nonce := 0, difficulty := 0, body := some [[1]] }]).blocks[1]? =
      some { prev_hash := 2, nonce := 0, difficulty := 0, body := some [[1]] } := by
    decide
  rw [hb1] at hb
  cases hb
  cases hblobs
  cases hblob
  exact absurd hhash (by decide)

/-- C10: Chain.add evaluates block.get_body().blobs for the debug log
before any guard, so add succeeds exactly when get_body() yields a
body object; when the block is bodiless the call fails even though the
guarded __add_mined_blobs part on its own would simply leave the index
unchanged; and every block decoded with has_bodies = False (as during
Chain.decode(data, False)) is such a bodiless block. -/
theorem chain_add_body_access (c : Chain) (b : Block) :
    (isOkE (c.addE b) = b.has_body) ∧
    (b.has_body = false →
      c.addE b = Except.error "AttributeError: NoneType has no attribute blobs" ∧
      ∀ idx, Chain.addMinedBlobs idx b c.mined_blobs = c.mined_blobs) ∧
    (∀ r b', Block.decode r false = Except.ok b' → b'.has_body = false) := by
  refine ⟨?_, ?_, ?_⟩
  · cases hb : b.body <;>
      simp [Chain.addE, Block.get_body, Block.has_body, hb, isOkE]
  · intro hnb
    have hb : b.body = none := by
      cases hb : b.body with
      | none => rfl
      | some blobs =>
        rw [Block.has_body, hb] at hnb
        cases hnb
    refine ⟨?_, ?_⟩
    · simp [Chain.addE, Block.get_body, hb]
    · intro idx
      simp [Chain.addMinedBlobs, hb]
  · intro r b' hdec
    match r with
    | [] => cases hdec
    | [_] => cases hdec
    | [_, _] => cases hdec
    | ph :: n :: d :: rest =>
      simp only [Block.decode, Bool.false_eq_true, if_false] at hdec
      cases hdec
      rfl

/-- C10 witness: adding a concrete bodiless block fails on the body
access, while the guarded blob-index update leaves the index alone. -/
theorem chain_add_body_access_witness :
    isOkE (Chain.init.addE { prev_hash := 1, nonce := 2, difficulty := 3, body := none }) = false ∧
    Chain.addMinedBlobs 1 { prev_hash := 1, nonce := 2, difficulty := 3, body := none }
      Chain.init.mined_blobs = Chain.init.mined_blobs :=
  ⟨((chain_add_body_access Chain.init
      { prev_hash := 1, nonce := 2, difficulty := 3, body := none }).1).trans (by decide),
    ((chain_add_body_access Chain.init
      { prev_hash := 1, nonce := 2, difficulty := 3, body := none }).2.1 (by decide)).2 1⟩
